import Mathlib

/-!
Verification of the SMA crossover event engine of `src/sma_events.py`.

Prices and SMA values are modelled as rationals (`ℚ`); trade dates as
integers (`ℤ`, a day number, so `timedelta(days=n)` is subtraction of `n`).
A price row is a pair `(trade_date, close)`.  The pandas rolling mean, the
three-register crossover scan, the deduplication/resumption logic of `main`
and the upsert helpers are each translated into executable definitions below.
-/

/-- One event candidate, the dictionary built inside `compute_sma_events`
(`sma_events.py`, lines 179-269).  The `short_sma` / `long_sma` fields are
optional because the source stores `None` when the corresponding average is
not yet valid. -/
structure SmaEvent where
  symbol : String
  event_date : ℤ
  event_type : String
  short_window : ℕ
  long_window : ℕ
  close_price : ℚ
  short_sma : Option ℚ
  long_sma : Option ℚ
  deriving DecidableEq, Repr

/-- A row of the annotated frame after the two `rolling(...).mean()`
assignments (lines 157-158): close plus the two optional SMA values
(`None` models pandas `NaN`, which `pd.notna` tests). -/
structure AnnPoint where
  trade_date : ℤ
  close : ℚ
  short_sma : Option ℚ
  long_sma : Option ℚ
  deriving DecidableEq, Repr

/-- The three `previous_*_diff` registers of the scan loop
(lines 162-164); `none` models Python `None`. -/
structure ScanState where
  prevShort : Option ℚ
  prevLong : Option ℚ
  prevSma : Option ℚ
  deriving DecidableEq, Repr

/-- The rolling window ending at index `i`: the at-most-`W` most recent
observations up to and including `i`. -/
def rollWindow (closes : List ℚ) (W i : ℕ) : List ℚ :=
  (closes.take (i + 1)).drop (i + 1 - W)

/-- `pandas.Series.rolling(window=W, min_periods=W).mean()` at index `i`:
the mean over the window ending at `i` is produced only when the window
holds at least `W` observations (`min_periods=W`), otherwise the result is
missing. -/
def rollingMeanAt (closes : List ℚ) (W i : ℕ) : Option ℚ :=
  if W ≤ (rollWindow closes W i).length then
    some ((rollWindow closes W i).sum / ((rollWindow closes W i).length : ℚ))
  else none

/-- The whole rolling-mean column, aligned with `closes`. -/
def rollingMean (closes : List ℚ) (W : ℕ) : List (Option ℚ) :=
  (List.range closes.length).map (rollingMeanAt closes W)

/-- The annotated frame built by lines 156-158: each price row together
with the two rolling means at its index. -/
def annotate (prices : List (ℤ × ℚ)) (sw lw : ℕ) : List AnnPoint :=
  (List.range prices.length).map fun i =>
    let pr := prices.getD i (0, 0)
    { trade_date := pr.1
      close := pr.2
      short_sma := rollingMeanAt (prices.map (·.2)) sw i
      long_sma := rollingMeanAt (prices.map (·.2)) lw i }

/-- Lines 175-206: handling of the `close - short_sma` difference at one
row.  Returns the events emitted by this block and the new value of the
`previous_short_diff` register. -/
def shortStep (sym : String) (sw lw : ℕ) (p : AnnPoint) (prev : Option ℚ) :
    List SmaEvent × Option ℚ :=
  match p.short_sma with
  | none => ([], none)
  | some s =>
    let d := p.close - s
    let evs :=
      match prev with
      | none => []
      | some pd =>
        if pd ≤ 0 ∧ 0 < d then
          [{ symbol := sym, event_date := p.trade_date,
             event_type := "price_cross_short_up",
             short_window := sw, long_window := lw,
             close_price := p.close, short_sma := some s,
             long_sma := p.long_sma }]
        else if 0 ≤ pd ∧ d < 0 then
          [{ symbol := sym, event_date := p.trade_date,
             event_type := "price_cross_short_down",
             short_window := sw, long_window := lw,
             close_price := p.close, short_sma := some s,
             long_sma := p.long_sma }]
        else []
    (evs, some d)

/-- Lines 208-239: the `close - long_sma` difference at one row. -/
def longStep (sym : String) (sw lw : ℕ) (p : AnnPoint) (prev : Option ℚ) :
    List SmaEvent × Option ℚ :=
  match p.long_sma with
  | none => ([], none)
  | some l =>
    let d := p.close - l
    let evs :=
      match prev with
      | none => []
      | some pd =>
        if pd ≤ 0 ∧ 0 < d then
          [{ symbol := sym, event_date := p.trade_date,
             event_type := "price_cross_long_up",
             short_window := sw, long_window := lw,
             close_price := p.close, short_sma := p.short_sma,
             long_sma := some l }]
        else if 0 ≤ pd ∧ d < 0 then
          [{ symbol := sym, event_date := p.trade_date,
             event_type := "price_cross_long_down",
             short_window := sw, long_window := lw,
             close_price := p.close, short_sma := p.short_sma,
             long_sma := some l }]
        else []
    (evs, some d)

/-- Lines 241-272: the `short_sma - long_sma` difference at one row. -/
def smaStep (sym : String) (sw lw : ℕ) (p : AnnPoint) (prev : Option ℚ) :
    List SmaEvent × Option ℚ :=
  match p.short_sma, p.long_sma with
  | some s, some l =>
    let d := s - l
    let evs :=
      match prev with
      | none => []
      | some pd =>
        if pd ≤ 0 ∧ 0 < d then
          [{ symbol := sym, event_date := p.trade_date,
             event_type := "golden_cross",
             short_window := sw, long_window := lw,
             close_price := p.close, short_sma := some s,
             long_sma := some l }]
        else if 0 ≤ pd ∧ d < 0 then
          [{ symbol := sym, event_date := p.trade_date,
             event_type := "death_cross",
             short_window := sw, long_window := lw,
             close_price := p.close, short_sma := some s,
             long_sma := some l }]
        else []
    (evs, some d)
  | _, _ => ([], none)

/-- One iteration of the `for _, row in frame.iterrows()` loop
(lines 166-272): the three difference blocks run in order and the three
registers are updated. -/
def scanStep (sym : String) (sw lw : ℕ) (st : ScanState) (p : AnnPoint) :
    ScanState × List SmaEvent :=
  let a := shortStep sym sw lw p st.prevShort
  let b := longStep sym sw lw p st.prevLong
  let c := smaStep sym sw lw p st.prevSma
  (⟨a.2, b.2, c.2⟩, a.1 ++ b.1 ++ c.1)

/-- The whole scan loop: final state and concatenated event list. -/
def runScan (sym : String) (sw lw : ℕ) :
    ScanState → List AnnPoint → ScanState × List SmaEvent
  | st, [] => (st, [])
  | st, p :: ps =>
    let a := scanStep sym sw lw st p
    let r := runScan sym sw lw a.1 ps
    (r.1, a.2 ++ r.2)

/-- The initial scan state (lines 162-164: all three registers `None`). -/
def initState : ScanState := ⟨none, none, none⟩

/-- `compute_sma_events(frame, symbol, short_window, long_window)`
(lines 147-274): empty frame short-circuit, annotation, then the scan.
The frame handed to it by `main` is already ordered by `trade_date`
ascending (the reader's `ORDER BY`, line 131), so `sort_values` is the
identity on it and the input list is taken as given. -/
def compute_sma_events (prices : List (ℤ × ℚ)) (sym : String) (sw lw : ℕ) :
    List SmaEvent :=
  if prices.isEmpty then []
  else (runScan sym sw lw initState (annotate prices sw lw)).2

/-! ## Rolling mean characterization (claim C2) -/

theorem rollWindow_length (closes : List ℚ) (W i : ℕ) (hi : i < closes.length) :
    (rollWindow closes W i).length = min W (i + 1) := by
  rw [rollWindow, List.length_drop, List.length_take]
  omega

theorem rollingMeanAt_spec (closes : List ℚ) (W i : ℕ) (hW : 0 < W)
    (hi : i < closes.length) :
    rollingMeanAt closes W i =
      if W - 1 ≤ i then
        some (((closes.drop (i + 1 - W)).take W).sum / (W : ℚ))
      else none := by
  have hlen := rollWindow_length closes W i hi
  by_cases h : W ≤ i + 1
  · have heq : rollWindow closes W i = (closes.drop (i + 1 - W)).take W := by
      rw [rollWindow, List.drop_take]
      congr 1
      omega
    have hlen2 : (rollWindow closes W i).length = W := by omega
    rw [rollingMeanAt, if_pos (by omega), if_pos (by omega : W - 1 ≤ i), hlen2, heq]
  · rw [rollingMeanAt, if_neg (by omega), if_neg (by omega)]

theorem rollingMean_length (closes : List ℚ) (W : ℕ) :
    (rollingMean closes W).length = closes.length := by
  simp [rollingMean]

theorem rollingMean_getElem? (closes : List ℚ) (W i : ℕ) (hi : i < closes.length) :
    (rollingMean closes W)[i]? = some (rollingMeanAt closes W i) := by
  simp [rollingMean, List.getElem?_range, hi]

/-! ## Shape of the events emitted by one scan step -/

theorem shortStep_mem {sym : String} {sw lw : ℕ} {p : AnnPoint} {prev : Option ℚ}
    {e : SmaEvent} (he : e ∈ (shortStep sym sw lw p prev).1) :
    e.symbol = sym ∧ e.event_date = p.trade_date ∧
      (e.event_type = "price_cross_short_up" ∨
       e.event_type = "price_cross_short_down") := by
  rcases hs : p.short_sma with _ | s
  · simp [shortStep, hs] at he
  · rcases hp : prev with _ | pd
    · simp [shortStep, hs, hp] at he
    · simp only [shortStep, hs, hp] at he
      split_ifs at he <;> simp_all

theorem longStep_mem {sym : String} {sw lw : ℕ} {p : AnnPoint} {prev : Option ℚ}
    {e : SmaEvent} (he : e ∈ (longStep sym sw lw p prev).1) :
    e.symbol = sym ∧ e.event_date = p.trade_date ∧
      (e.event_type = "price_cross_long_up" ∨
       e.event_type = "price_cross_long_down") := by
  rcases hs : p.long_sma with _ | l
  · simp [longStep, hs] at he
  · rcases hp : prev with _ | pd
    · simp [longStep, hs, hp] at he
    · simp only [longStep, hs, hp] at he
      split_ifs at he <;> simp_all

theorem smaStep_mem {sym : String} {sw lw : ℕ} {p : AnnPoint} {prev : Option ℚ}
    {e : SmaEvent} (he : e ∈ (smaStep sym sw lw p prev).1) :
    e.symbol = sym ∧ e.event_date = p.trade_date ∧
      (e.event_type = "golden_cross" ∨ e.event_type = "death_cross") := by
  rcases hs : p.short_sma with _ | s
  · simp [smaStep, hs] at he
  · rcases hl : p.long_sma with _ | l
    · simp [smaStep, hs, hl] at he
    · rcases hp : prev with _ | pd
      · simp [smaStep, hs, hl, hp] at he
      · simp only [smaStep, hs, hl, hp] at he
        split_ifs at he <;> simp_all

theorem scanStep_mem {sym : String} {sw lw : ℕ} {st : ScanState} {p : AnnPoint}
    {e : SmaEvent} (he : e ∈ (scanStep sym sw lw st p).2) :
    e.symbol = sym ∧ e.event_date = p.trade_date := by
  simp only [scanStep, List.mem_append] at he
  rcases he with (h | h) | h
  · exact ⟨(shortStep_mem h).1, (shortStep_mem h).2.1⟩
  · exact ⟨(longStep_mem h).1, (longStep_mem h).2.1⟩
  · exact ⟨(smaStep_mem h).1, (smaStep_mem h).2.1⟩

/-! ## The three differences and the register update -/

/-- The `close - short_sma` difference, when defined. -/
def shortDiff (p : AnnPoint) : Option ℚ := p.short_sma.map (fun s => p.close - s)

/-- The `close - long_sma` difference, when defined. -/
def longDiff (p : AnnPoint) : Option ℚ := p.long_sma.map (fun l => p.close - l)

/-- The `short_sma - long_sma` difference, defined only when both averages
are. -/
def smaDiff (p : AnnPoint) : Option ℚ :=
  match p.short_sma, p.long_sma with
  | some s, some l => some (s - l)
  | _, _ => none

theorem shortStep_reg (sym : String) (sw lw : ℕ) (p : AnnPoint) (prev : Option ℚ) :
    (shortStep sym sw lw p prev).2 = shortDiff p := by
  rcases hs : p.short_sma with _ | s <;> simp [shortStep, shortDiff, hs]

theorem longStep_reg (sym : String) (sw lw : ℕ) (p : AnnPoint) (prev : Option ℚ) :
    (longStep sym sw lw p prev).2 = longDiff p := by
  rcases hl : p.long_sma with _ | l <;> simp [longStep, longDiff, hl]

theorem smaStep_reg (sym : String) (sw lw : ℕ) (p : AnnPoint) (prev : Option ℚ) :
    (smaStep sym sw lw p prev).2 = smaDiff p := by
  rcases hs : p.short_sma with _ | s <;> rcases hl : p.long_sma with _ | l <;>
    simp [smaStep, smaDiff, hs, hl]

theorem shortStep_none (sym : String) (sw lw : ℕ) (p : AnnPoint) :
    (shortStep sym sw lw p none).1 = [] := by
  rcases hs : p.short_sma with _ | s <;> simp [shortStep, hs]

theorem longStep_none (sym : String) (sw lw : ℕ) (p : AnnPoint) :
    (longStep sym sw lw p none).1 = [] := by
  rcases hl : p.long_sma with _ | l <;> simp [longStep, hl]

theorem smaStep_none (sym : String) (sw lw : ℕ) (p : AnnPoint) :
    (smaStep sym sw lw p none).1 = [] := by
  rcases hs : p.short_sma with _ | s <;> rcases hl : p.long_sma with _ | l <;>
    simp [smaStep, hs, hl]

/-! ## Firing conditions of each difference block -/

theorem shortStep_fires_up (sym : String) (sw lw : ℕ) (p : AnnPoint) (pd s : ℚ)
    (hs : p.short_sma = some s) :
    "price_cross_short_up" ∈ (shortStep sym sw lw p (some pd)).1.map (·.event_type) ↔
      pd ≤ 0 ∧ 0 < p.close - s := by
  simp only [shortStep, hs]
  split_ifs with h1 h2
  · simpa using h1
  · simp
    exact fun _ => (sub_neg.mp h2.2).le
  · simp
    exact fun hpd => le_of_not_lt fun hd => h1 ⟨hpd, sub_pos.mpr hd⟩

theorem shortStep_fires_down (sym : String) (sw lw : ℕ) (p : AnnPoint) (pd s : ℚ)
    (hs : p.short_sma = some s) :
    "price_cross_short_down" ∈ (shortStep sym sw lw p (some pd)).1.map (·.event_type) ↔
      0 ≤ pd ∧ p.close - s < 0 := by
  simp only [shortStep, hs]
  split_ifs with h1 h2
  · simp
    exact fun _ => (sub_pos.mp h1.2).le
  · simpa using h2
  · simp
    exact fun hpd => le_of_not_lt fun hd => h2 ⟨hpd, sub_neg.mpr hd⟩

theorem longStep_fires_up (sym : String) (sw lw : ℕ) (p : AnnPoint) (pd l : ℚ)
    (hl : p.long_sma = some l) :
    "price_cross_long_up" ∈ (longStep sym sw lw p (some pd)).1.map (·.event_type) ↔
      pd ≤ 0 ∧ 0 < p.close - l := by
  simp only [longStep, hl]
  split_ifs with h1 h2
  · simpa using h1
  · simp
    exact fun _ => (sub_neg.mp h2.2).le
  · simp
    exact fun hpd => le_of_not_lt fun hd => h1 ⟨hpd, sub_pos.mpr hd⟩

theorem longStep_fires_down (sym : String) (sw lw : ℕ) (p : AnnPoint) (pd l : ℚ)
    (hl : p.long_sma = some l) :
    "price_cross_long_down" ∈ (longStep sym sw lw p (some pd)).1.map (·.event_type) ↔
      0 ≤ pd ∧ p.close - l < 0 := by
  simp only [longStep, hl]
  split_ifs with h1 h2
  · simp
    exact fun _ => (sub_pos.mp h1.2).le
  · simpa using h2
  · simp
    exact fun hpd => le_of_not_lt fun hd => h2 ⟨hpd, sub_neg.mpr hd⟩

theorem smaStep_fires_up (sym : String) (sw lw : ℕ) (p : AnnPoint) (pd s l : ℚ)
    (hs : p.short_sma = some s) (hl : p.long_sma = some l) :
    "golden_cross" ∈ (smaStep sym sw lw p (some pd)).1.map (·.event_type) ↔
      pd ≤ 0 ∧ 0 < s - l := by
  simp only [smaStep, hs, hl]
  split_ifs with h1 h2
  · simpa using h1
  · simp
    exact fun _ => (sub_neg.mp h2.2).le
  · simp
    exact fun hpd => le_of_not_lt fun hd => h1 ⟨hpd, sub_pos.mpr hd⟩

theorem smaStep_fires_down (sym : String) (sw lw : ℕ) (p : AnnPoint) (pd s l : ℚ)
    (hs : p.short_sma = some s) (hl : p.long_sma = some l) :
    "death_cross" ∈ (smaStep sym sw lw p (some pd)).1.map (·.event_type) ↔
      0 ≤ pd ∧ s - l < 0 := by
  simp only [smaStep, hs, hl]
  split_ifs with h1 h2
  · simp
    exact fun _ => (sub_pos.mp h1.2).le
  · simpa using h2
  · simp
    exact fun hpd => le_of_not_lt fun hd => h2 ⟨hpd, sub_neg.mpr hd⟩

/-! ## Routing event types to the difference block that can emit them -/

theorem scanStep_mem_short_type (sym : String) (sw lw : ℕ) (st : ScanState)
    (p : AnnPoint) (t : String)
    (ht : t = "price_cross_short_up" ∨ t = "price_cross_short_down") :
    t ∈ (scanStep sym sw lw st p).2.map (·.event_type) ↔
      t ∈ (shortStep sym sw lw p st.prevShort).1.map (·.event_type) := by
  simp only [scanStep, List.map_append, List.mem_append]
  constructor
  · rintro ((h | h) | h)
    · exact h
    · exfalso
      rcases List.mem_map.1 h with ⟨e, he, rfl⟩
      rcases longStep_mem he with ⟨-, -, h' | h'⟩ <;> rcases ht with ht | ht <;>
        simp_all
    · exfalso
      rcases List.mem_map.1 h with ⟨e, he, rfl⟩
      rcases smaStep_mem he with ⟨-, -, h' | h'⟩ <;> rcases ht with ht | ht <;>
        simp_all
  · exact fun h => Or.inl (Or.inl h)

theorem scanStep_mem_long_type (sym : String) (sw lw : ℕ) (st : ScanState)
    (p : AnnPoint) (t : String)
    (ht : t = "price_cross_long_up" ∨ t = "price_cross_long_down") :
    t ∈ (scanStep sym sw lw st p).2.map (·.event_type) ↔
      t ∈ (longStep sym sw lw p st.prevLong).1.map (·.event_type) := by
  simp only [scanStep, List.map_append, List.mem_append]
  constructor
  · rintro ((h | h) | h)
    · exfalso
      rcases List.mem_map.1 h with ⟨e, he, rfl⟩
      rcases shortStep_mem he with ⟨-, -, h' | h'⟩ <;> rcases ht with ht | ht <;>
        simp_all
    · exact h
    · exfalso
      rcases List.mem_map.1 h with ⟨e, he, rfl⟩
      rcases smaStep_mem he with ⟨-, -, h' | h'⟩ <;> rcases ht with ht | ht <;>
        simp_all
  · exact fun h => Or.inl (Or.inr h)

theorem scanStep_mem_sma_type (sym : String) (sw lw : ℕ) (st : ScanState)
    (p : AnnPoint) (t : String)
    (ht : t = "golden_cross" ∨ t = "death_cross") :
    t ∈ (scanStep sym sw lw st p).2.map (·.event_type) ↔
      t ∈ (smaStep sym sw lw p st.prevSma).1.map (·.event_type) := by
  simp only [scanStep, List.map_append, List.mem_append]
  constructor
  · rintro ((h | h) | h)
    · exfalso
      rcases List.mem_map.1 h with ⟨e, he, rfl⟩
      rcases shortStep_mem he with ⟨-, -, h' | h'⟩ <;> rcases ht with ht | ht <;>
        simp_all
    · exfalso
      rcases List.mem_map.1 h with ⟨e, he, rfl⟩
      rcases longStep_mem he with ⟨-, -, h' | h'⟩ <;> rcases ht with ht | ht <;>
        simp_all
    · exact h
  · exact fun h => Or.inr h

/-! ## Decomposing the scan -/

theorem runScan_append (sym : String) (sw lw : ℕ) (st : ScanState)
    (l₁ l₂ : List AnnPoint) :
    runScan sym sw lw st (l₁ ++ l₂) =
      ((runScan sym sw lw (runScan sym sw lw st l₁).1 l₂).1,
       (runScan sym sw lw st l₁).2 ++
         (runScan sym sw lw (runScan sym sw lw st l₁).1 l₂).2) := by
  induction l₁ generalizing st with
  | nil => simp [runScan]
  | cons p ps ih => simp [runScan, ih]

theorem runScan_mem {sym : String} {sw lw : ℕ} {st : ScanState}
    {l : List AnnPoint} {e : SmaEvent} (he : e ∈ (runScan sym sw lw st l).2) :
    e.symbol = sym ∧ e.event_date ∈ l.map (·.trade_date) := by
  induction l generalizing st with
  | nil => simp [runScan] at he
  | cons p ps ih =>
    simp only [runScan, List.mem_append] at he
    rcases he with h | h
    · have h' := scanStep_mem h
      exact ⟨h'.1, by simp [h'.2]⟩
    · rcases ih h with ⟨h1, h2⟩
      exact ⟨h1, by simp [h2]⟩

/-- The scan state when the pass over `A` reaches position `i` (the values
of the three `previous_*_diff` registers at the start of iteration `i`). -/
def stateAt (sym : String) (sw lw : ℕ) (A : List AnnPoint) (i : ℕ) : ScanState :=
  (runScan sym sw lw initState (A.take i)).1

/-- With strictly increasing dates, an event carrying the date of point `i`
is in the full scan output exactly when iteration `i` emits it. -/
theorem runScan_isolate (sym : String) (sw lw : ℕ) (A : List AnnPoint) (i : ℕ)
    (p : AnnPoint) (hp : A[i]? = some p)
    (hsorted : A.Pairwise (fun a b => a.trade_date < b.trade_date))
    (e : SmaEvent) (hdate : e.event_date = p.trade_date) :
    e ∈ (runScan sym sw lw initState A).2 ↔
      e ∈ (scanStep sym sw lw (stateAt sym sw lw A i) p).2 := by
  have hi : i < A.length := by
    by_contra h
    rw [List.getElem?_eq_none (le_of_not_lt h)] at hp
    exact Option.noConfusion hp
  have hpi : A[i] = p := by
    have h2 := List.getElem?_eq_getElem hi
    rw [hp] at h2
    exact (Option.some.inj h2).symm
  have hA : A = A.take i ++ p :: A.drop (i + 1) := by
    conv_lhs => rw [← List.take_append_drop i A]
    congr 1
    rw [List.drop_eq_getElem_cons hi, hpi]
  have htk : A.take i = (A.take i ++ p :: A.drop (i + 1)).take i := by
    rw [List.take_append_of_le_length]
    · simp [List.take_take]
    · simp
      omega
  rw [hA] at hsorted ⊢
  rw [stateAt, ← htk]
  rw [List.pairwise_append] at hsorted
  have hbefore : ∀ a ∈ A.take i, a.trade_date < p.trade_date :=
    fun a ha => hsorted.2.2 a ha p (by simp)
  have hafter : ∀ b ∈ A.drop (i + 1), p.trade_date < b.trade_date :=
    (List.pairwise_cons.1 hsorted.2.1).1
  rw [runScan_append]
  constructor
  · intro h
    rcases List.mem_append.1 h with h1 | h1
    · exfalso
      rcases runScan_mem h1 with ⟨-, hd⟩
      rcases List.mem_map.1 hd with ⟨a, ha, hda⟩
      exact absurd (hdate ▸ hda) (ne_of_lt (hbefore a ha))
    · rw [show (p :: A.drop (i + 1)) =
          [p] ++ A.drop (i + 1) from rfl, runScan_append] at h1
      rcases List.mem_append.1 h1 with h2 | h2
      · simpa [runScan] using h2
      · exfalso
        rcases runScan_mem h2 with ⟨-, hd⟩
        rcases List.mem_map.1 hd with ⟨a, ha, hda⟩
        exact absurd (hdate ▸ hda) (ne_of_gt (hafter a ha))
  · intro h
    refine List.mem_append.2 (Or.inr ?_)
    rw [show (p :: A.drop (i + 1)) = [p] ++ A.drop (i + 1) from rfl, runScan_append]
    refine List.mem_append.2 (Or.inl ?_)
    simpa [runScan] using h

/-! ## The annotated frame, elementwise -/

theorem annotate_length (prices : List (ℤ × ℚ)) (sw lw : ℕ) :
    (annotate prices sw lw).length = prices.length := by
  simp [annotate]

theorem annotate_getElem? (prices : List (ℤ × ℚ)) (sw lw : ℕ) (i : ℕ)
    (hi : i < prices.length) :
    (annotate prices sw lw)[i]? = some
      { trade_date := (prices.getD i (0, 0)).1
        close := (prices.getD i (0, 0)).2
        short_sma := rollingMeanAt (prices.map (·.2)) sw i
        long_sma := rollingMeanAt (prices.map (·.2)) lw i } := by
  simp [annotate, List.getElem?_range, hi]

theorem annotate_dates (prices : List (ℤ × ℚ)) (sw lw : ℕ) :
    (annotate prices sw lw).map (·.trade_date) = prices.map (·.1) := by
  apply List.ext_getElem?
  intro i
  by_cases hi : i < prices.length
  · rw [List.getElem?_map, annotate_getElem? prices sw lw i hi]
    simp [List.getD_eq_getElem?_getD, List.getElem?_eq_getElem hi]
  · have h1 : prices.length ≤ i := le_of_not_lt hi
    rw [List.getElem?_map, List.getElem?_map]
    rw [List.getElem?_eq_none (by simpa [annotate_length] using h1),
        List.getElem?_eq_none h1]
    rfl

theorem annotate_sorted (prices : List (ℤ × ℚ)) (sw lw : ℕ)
    (hsorted : prices.Pairwise (fun a b => a.1 < b.1)) :
    (annotate prices sw lw).Pairwise (fun a b => a.trade_date < b.trade_date) := by
  have h1 : List.Pairwise (· < ·) ((annotate prices sw lw).map (·.trade_date)) := by
    rw [annotate_dates]
    exact List.pairwise_map.2 hsorted
  exact List.pairwise_map.1 h1

/-- C2: for every ordered sequence of `N` closes and window length `W`
(instantiated by `compute_sma_events` with `W = short_window` and
`W = long_window`), the rolling-average column is an aligned sequence of
`N` optional values whose element `i` is the arithmetic mean of
`closes[i-W+1..i]` when `i ≥ W-1` and is absent otherwise; the annotated
frame built inside `compute_sma_events` carries exactly these values in
its `short_sma` / `long_sma` fields. -/
theorem c2_rolling_average_contract (closes : List ℚ) (W : ℕ) (hW : 0 < W) :
    (rollingMean closes W).length = closes.length ∧
    (∀ i, i < closes.length →
      (rollingMean closes W)[i]? =
        some (if W - 1 ≤ i then
                some (((closes.drop (i + 1 - W)).take W).sum / (W : ℚ))
              else none)) ∧
    (∀ i, i < closes.length →
      (rollingMean closes W)[i]? = some (rollingMeanAt closes W i)) ∧
    (∀ (prices : List (ℤ × ℚ)) (sw lw i : ℕ), i < prices.length →
      (annotate prices sw lw)[i]? = some
        { trade_date := (prices.getD i (0, 0)).1
          close := (prices.getD i (0, 0)).2
          short_sma := rollingMeanAt (prices.map (·.2)) sw i
          long_sma := rollingMeanAt (prices.map (·.2)) lw i }) := by
  refine ⟨rollingMean_length closes W, fun i hi => ?_,
    fun i hi => rollingMean_getElem? closes W i hi,
    fun prices sw lw i hi => annotate_getElem? prices sw lw i hi⟩
  rw [rollingMean_getElem? closes W i hi, rollingMeanAt_spec closes W i hW hi]

/-- Witness for C2 at `closes = [1, 2, 3]`, `W = 2`. -/
theorem c2_rolling_average_contract_witness :
    0 < 2 ∧
    (rollingMean [(1 : ℚ), 2, 3] 2).length = ([(1 : ℚ), 2, 3] : List ℚ).length :=
  ⟨by norm_num, (c2_rolling_average_contract [(1 : ℚ), 2, 3] 2 (by norm_num)).1⟩

/-- With sorted dates, `compute_sma_events` contains an event of type `t`
dated at point `i` exactly when iteration `i` of the scan emits one. -/
theorem compute_mem_type_iff (sym : String) (sw lw : ℕ) (prices : List (ℤ × ℚ))
    (hsorted : prices.Pairwise (fun a b => a.1 < b.1)) (i : ℕ) (p : AnnPoint)
    (hp : (annotate prices sw lw)[i]? = some p) (t : String) :
    (∃ e ∈ compute_sma_events prices sym sw lw,
        e.event_date = p.trade_date ∧ e.event_type = t) ↔
      t ∈ (scanStep sym sw lw (stateAt sym sw lw (annotate prices sw lw) i) p).2.map
            (·.event_type) := by
  have hne : ¬prices.isEmpty = true := by
    intro h
    rw [List.isEmpty_iff.1 h] at hp
    simp [annotate] at hp
  have hcompute : compute_sma_events prices sym sw lw =
      (runScan sym sw lw initState (annotate prices sw lw)).2 := by
    rw [compute_sma_events, if_neg hne]
  have hsortedA := annotate_sorted prices sw lw hsorted
  constructor
  · rintro ⟨e, hmem, hd, ht⟩
    rw [hcompute] at hmem
    exact List.mem_map.2
      ⟨e, (runScan_isolate sym sw lw _ i p hp hsortedA e hd).1 hmem, ht⟩
  · intro h
    rcases List.mem_map.1 h with ⟨e, he, ht⟩
    have hd : e.event_date = p.trade_date := (scanStep_mem he).2
    refine ⟨e, ?_, hd, ht⟩
    rw [hcompute]
    exact (runScan_isolate sym sw lw _ i p hp hsortedA e hd).2 he

/-- C1: at every point of the scan at which both the previous and the
current difference are defined, `compute_sma_events` emits the up event for
that difference exactly when the previous difference is `≤ 0` and the
current one `> 0`, and the down event exactly when the previous difference
is `≥ 0` and the current one `< 0` — for all three differences
(`close - short_sma`, `close - long_sma`, `short_sma - long_sma`).  A zero
difference never fires by itself but feeds the next comparison; in
particular `close = short_sma` on day T followed by `close > short_sma` on
day T+1 yields exactly one `price_cross_short_up` on T+1 and nothing on T
(final conjunct, on the series `10, 10, 14` with windows 2 and 5). -/
theorem c1_sign_change_detection (sym : String) (sw lw : ℕ)
    (prices : List (ℤ × ℚ)) (hsorted : prices.Pairwise (fun a b => a.1 < b.1))
    (i : ℕ) (p : AnnPoint) (hp : (annotate prices sw lw)[i]? = some p) :
    (∀ pd s,
      (stateAt sym sw lw (annotate prices sw lw) i).prevShort = some pd →
      p.short_sma = some s →
      ((∃ e ∈ compute_sma_events prices sym sw lw,
          e.event_date = p.trade_date ∧ e.event_type = "price_cross_short_up") ↔
        (pd ≤ 0 ∧ 0 < p.close - s)) ∧
      ((∃ e ∈ compute_sma_events prices sym sw lw,
          e.event_date = p.trade_date ∧ e.event_type = "price_cross_short_down") ↔
        (0 ≤ pd ∧ p.close - s < 0))) ∧
    (∀ pd l,
      (stateAt sym sw lw (annotate prices sw lw) i).prevLong = some pd →
      p.long_sma = some l →
      ((∃ e ∈ compute_sma_events prices sym sw lw,
          e.event_date = p.trade_date ∧ e.event_type = "price_cross_long_up") ↔
        (pd ≤ 0 ∧ 0 < p.close - l)) ∧
      ((∃ e ∈ compute_sma_events prices sym sw lw,
          e.event_date = p.trade_date ∧ e.event_type = "price_cross_long_down") ↔
        (0 ≤ pd ∧ p.close - l < 0))) ∧
    (∀ pd s l,
      (stateAt sym sw lw (annotate prices sw lw) i).prevSma = some pd →
      p.short_sma = some s → p.long_sma = some l →
      ((∃ e ∈ compute_sma_events prices sym sw lw,
          e.event_date = p.trade_date ∧ e.event_type = "golden_cross") ↔
        (pd ≤ 0 ∧ 0 < s - l)) ∧
      ((∃ e ∈ compute_sma_events prices sym sw lw,
          e.event_date = p.trade_date ∧ e.event_type = "death_cross") ↔
        (0 ≤ pd ∧ s - l < 0))) ∧
    compute_sma_events [((0 : ℤ), (10 : ℚ)), (1, 10), (2, 14)] "SYM" 2 5 =
      [{ symbol := "SYM", event_date := 2, event_type := "price_cross_short_up",
         short_window := 2, long_window := 5, close_price := 14,
         short_sma := some 12, long_sma := none }] := by
  refine ⟨?_, ?_, ?_, ?_⟩
  · intro pd s hst hs
    constructor
    · refine (compute_mem_type_iff sym sw lw prices hsorted i p hp _).trans ?_
      refine (scanStep_mem_short_type sym sw lw _ p _ (Or.inl rfl)).trans ?_
      rw [hst]
      exact shortStep_fires_up sym sw lw p pd s hs
    · refine (compute_mem_type_iff sym sw lw prices hsorted i p hp _).trans ?_
      refine (scanStep_mem_short_type sym sw lw _ p _ (Or.inr rfl)).trans ?_
      rw [hst]
      exact shortStep_fires_down sym sw lw p pd s hs
  · intro pd l hst hl
    constructor
    · refine (compute_mem_type_iff sym sw lw prices hsorted i p hp _).trans ?_
      refine (scanStep_mem_long_type sym sw lw _ p _ (Or.inl rfl)).trans ?_
      rw [hst]
      exact longStep_fires_up sym sw lw p pd l hl
    · refine (compute_mem_type_iff sym sw lw prices hsorted i p hp _).trans ?_
      refine (scanStep_mem_long_type sym sw lw _ p _ (Or.inr rfl)).trans ?_
      rw [hst]
      exact longStep_fires_down sym sw lw p pd l hl
  · intro pd s l hst hs hl
    constructor
    · refine (compute_mem_type_iff sym sw lw prices hsorted i p hp _).trans ?_
      refine (scanStep_mem_sma_type sym sw lw _ p _ (Or.inl rfl)).trans ?_
      rw [hst]
      exact smaStep_fires_up sym sw lw p pd s l hs hl
    · refine (compute_mem_type_iff sym sw lw prices hsorted i p hp _).trans ?_
      refine (scanStep_mem_sma_type sym sw lw _ p _ (Or.inr rfl)).trans ?_
      rw [hst]
      exact smaStep_fires_down sym sw lw p pd s l hs hl
  · norm_num [compute_sma_events, annotate, runScan, scanStep, shortStep,
      longStep, smaStep, rollingMeanAt, rollWindow, initState, List.range_succ]

/-! ## Gap handling (claim C3) -/

/-- C3: whenever a difference is undefined at a point (an SMA input is
absent), its `previous` register is reset to `none` (first three
conjuncts); consequently at the first point after such a gap no event of
that difference's types can fire, whatever the signs before and after the
gap (last three conjuncts). -/
theorem c3_gap_resets_register (sym : String) (sw lw : ℕ) :
    (∀ (st : ScanState) (p : AnnPoint), p.short_sma = none →
      ((scanStep sym sw lw st p).1).prevShort = none) ∧
    (∀ (st : ScanState) (p : AnnPoint), p.long_sma = none →
      ((scanStep sym sw lw st p).1).prevLong = none) ∧
    (∀ (st : ScanState) (p : AnnPoint), p.short_sma = none ∨ p.long_sma = none →
      ((scanStep sym sw lw st p).1).prevSma = none) ∧
    (∀ (st₀ : ScanState) (xs : List AnnPoint) (g p : AnnPoint),
      g.short_sma = none →
      ∀ e ∈ (scanStep sym sw lw (runScan sym sw lw st₀ (xs ++ [g])).1 p).2,
        e.event_type ≠ "price_cross_short_up" ∧
        e.event_type ≠ "price_cross_short_down") ∧
    (∀ (st₀ : ScanState) (xs : List AnnPoint) (g p : AnnPoint),
      g.long_sma = none →
      ∀ e ∈ (scanStep sym sw lw (runScan sym sw lw st₀ (xs ++ [g])).1 p).2,
        e.event_type ≠ "price_cross_long_up" ∧
        e.event_type ≠ "price_cross_long_down") ∧
    (∀ (st₀ : ScanState) (xs : List AnnPoint) (g p : AnnPoint),
      g.short_sma = none ∨ g.long_sma = none →
      ∀ e ∈ (scanStep sym sw lw (runScan sym sw lw st₀ (xs ++ [g])).1 p).2,
        e.event_type ≠ "golden_cross" ∧ e.event_type ≠ "death_cross") := by
  have hshort : ∀ (st : ScanState) (p : AnnPoint), p.short_sma = none →
      ((scanStep sym sw lw st p).1).prevShort = none := by
    intro st p h
    show (shortStep sym sw lw p st.prevShort).2 = none
    rw [shortStep_reg]
    simp [shortDiff, h]
  have hlong : ∀ (st : ScanState) (p : AnnPoint), p.long_sma = none →
      ((scanStep sym sw lw st p).1).prevLong = none := by
    intro st p h
    show (longStep sym sw lw p st.prevLong).2 = none
    rw [longStep_reg]
    simp [longDiff, h]
  have hsma : ∀ (st : ScanState) (p : AnnPoint),
      p.short_sma = none ∨ p.long_sma = none →
      ((scanStep sym sw lw st p).1).prevSma = none := by
    intro st p h
    show (smaStep sym sw lw p st.prevSma).2 = none
    rw [smaStep_reg]
    rcases h with h | h <;> rcases hs : p.short_sma with _ | s <;>
      rcases hl : p.long_sma with _ | l <;> simp_all [smaDiff]
  have hafter : ∀ (st₀ : ScanState) (xs : List AnnPoint) (g : AnnPoint),
      (runScan sym sw lw st₀ (xs ++ [g])).1 =
        (scanStep sym sw lw (runScan sym sw lw st₀ xs).1 g).1 := by
    intro st₀ xs g
    rw [runScan_append]
    simp [runScan]
  refine ⟨hshort, hlong, hsma, ?_, ?_, ?_⟩
  · intro st₀ xs g p hg e he
    rw [hafter] at he
    simp only [scanStep, List.mem_append] at he
    rcases he with (h | h) | h
    · rw [shortStep_reg] at h
      simp only [shortDiff, hg, Option.map_none'] at h
      rw [shortStep_none] at h
      simp at h
    · rcases (longStep_mem h).2.2 with h' | h' <;> exact ⟨by simp [h'], by simp [h']⟩
    · rcases (smaStep_mem h).2.2 with h' | h' <;> exact ⟨by simp [h'], by simp [h']⟩
  · intro st₀ xs g p hg e he
    rw [hafter] at he
    simp only [scanStep, List.mem_append] at he
    rcases he with (h | h) | h
    · rcases (shortStep_mem h).2.2 with h' | h' <;> exact ⟨by simp [h'], by simp [h']⟩
    · rw [longStep_reg] at h
      simp only [longDiff, hg, Option.map_none'] at h
      rw [longStep_none] at h
      simp at h
    · rcases (smaStep_mem h).2.2 with h' | h' <;> exact ⟨by simp [h'], by simp [h']⟩
  · intro st₀ xs g p hg e he
    rw [hafter] at he
    simp only [scanStep, List.mem_append] at he
    rcases he with (h | h) | h
    · rcases (shortStep_mem h).2.2 with h' | h' <;> exact ⟨by simp [h'], by simp [h']⟩
    · rcases (longStep_mem h).2.2 with h' | h' <;> exact ⟨by simp [h'], by simp [h']⟩
    · have hnone : smaDiff g = none := by
        rcases hg with h' | h' <;> rcases hs2 : g.short_sma with _ | s <;>
          rcases hl2 : g.long_sma with _ | l <;> simp_all [smaDiff]
      rw [smaStep_reg, hnone, smaStep_none] at h
      simp at h

/-- Witness for C1: on `closes 10, 10, 14` (windows 2 and 5) the scan
reaches index 2 with `previous_short_diff = 0`, and the up event fires
there exactly because `0 ≤ 0` and `14 - 12 > 0`. -/
theorem c1_sign_change_detection_witness :
    (∃ e ∈ compute_sma_events [((0 : ℤ), (10 : ℚ)), (1, 10), (2, 14)] "SYM" 2 5,
        e.event_date = (2 : ℤ) ∧ e.event_type = "price_cross_short_up") ↔
      ((0 : ℚ) ≤ 0 ∧ (0 : ℚ) < 14 - 12) :=
  ((c1_sign_change_detection "SYM" 2 5 [((0 : ℤ), (10 : ℚ)), (1, 10), (2, 14)]
      (by decide) 2 ⟨2, 14, some 12, none⟩
      (by norm_num [annotate, rollingMeanAt, rollWindow, List.range_succ])).1 0 12
      (by norm_num [stateAt, annotate, runScan, scanStep, shortStep, longStep,
        smaStep, rollingMeanAt, rollWindow, initState, List.range_succ]) rfl).1

/-- Witness for C3: a point with `short_sma` absent resets the register,
and after such a gap point the next iteration fires no short price-cross. -/
theorem c3_gap_resets_register_witness :
    ((scanStep "S" 2 3 ⟨some 1, some 1, some 1⟩ ⟨0, 5, none, some 1⟩).1).prevShort =
        none ∧
    ∀ e ∈ (scanStep "S" 2 3
        (runScan "S" 2 3 initState ([] ++ [⟨0, 5, none, some 1⟩])).1
        ⟨1, 6, some 2, some 1⟩).2,
      e.event_type ≠ "price_cross_short_up" ∧
      e.event_type ≠ "price_cross_short_down" :=
  ⟨(c3_gap_resets_register "S" 2 3).1 ⟨some 1, some 1, some 1⟩ ⟨0, 5, none, some 1⟩
      rfl,
   (c3_gap_resets_register "S" 2 3).2.2.2.1 initState [] ⟨0, 5, none, some 1⟩
      ⟨1, 6, some 2, some 1⟩ rfl⟩

/-! ## Event counts per date (claim C7) -/

theorem shortStep_length (sym : String) (sw lw : ℕ) (p : AnnPoint)
    (prev : Option ℚ) : (shortStep sym sw lw p prev).1.length ≤ 1 := by
  rcases hs : p.short_sma with _ | s
  · simp [shortStep, hs]
  · rcases hp : prev with _ | pd
    · simp [shortStep, hs, hp]
    · simp only [shortStep, hs, hp]
      split_ifs <;> simp

theorem longStep_length (sym : String) (sw lw : ℕ) (p : AnnPoint)
    (prev : Option ℚ) : (longStep sym sw lw p prev).1.length ≤ 1 := by
  rcases hl : p.long_sma with _ | l
  · simp [longStep, hl]
  · rcases hp : prev with _ | pd
    · simp [longStep, hl, hp]
    · simp only [longStep, hl, hp]
      split_ifs <;> simp

theorem smaStep_length (sym : String) (sw lw : ℕ) (p : AnnPoint)
    (prev : Option ℚ) : (smaStep sym sw lw p prev).1.length ≤ 1 := by
  rcases hs : p.short_sma with _ | s
  · simp [smaStep, hs]
  · rcases hl : p.long_sma with _ | l
    · simp [smaStep, hs, hl]
    · rcases hp : prev with _ | pd
      · simp [smaStep, hs, hl, hp]
      · simp only [smaStep, hs, hl, hp]
        split_ifs <;> simp

theorem scanStep_countP_date (sym : String) (sw lw : ℕ) (st : ScanState)
    (p : AnnPoint) (d : ℤ) :
    ((scanStep sym sw lw st p).2).countP (fun e => e.event_date == d) ≤ 3 := by
  have h1 := List.countP_le_length (p := fun e : SmaEvent => e.event_date == d)
    (l := (scanStep sym sw lw st p).2)
  have h2 : ((scanStep sym sw lw st p).2).length ≤ 3 := by
    have ha := shortStep_length sym sw lw p st.prevShort
    have hb := longStep_length sym sw lw p st.prevLong
    have hc := smaStep_length sym sw lw p st.prevSma
    simp only [scanStep, List.length_append]
    omega
  omega

theorem scanStep_countP_type (sym : String) (sw lw : ℕ) (st : ScanState)
    (p : AnnPoint) (d : ℤ) (t : String) :
    ((scanStep sym sw lw st p).2).countP
        (fun e => e.event_date == d && e.event_type == t) ≤ 1 := by
  have ha := shortStep_length sym sw lw p st.prevShort
  have hb := longStep_length sym sw lw p st.prevLong
  have hc := smaStep_length sym sw lw p st.prevSma
  have hca := List.countP_le_length
    (p := fun e : SmaEvent => e.event_date == d && e.event_type == t)
    (l := (shortStep sym sw lw p st.prevShort).1)
  have hcb := List.countP_le_length
    (p := fun e : SmaEvent => e.event_date == d && e.event_type == t)
    (l := (longStep sym sw lw p st.prevLong).1)
  have hcc := List.countP_le_length
    (p := fun e : SmaEvent => e.event_date == d && e.event_type == t)
    (l := (smaStep sym sw lw p st.prevSma).1)
  simp only [scanStep, List.countP_append]
  by_cases h1 : t = "price_cross_short_up" ∨ t = "price_cross_short_down"
  · have hzb : ((longStep sym sw lw p st.prevLong).1).countP
        (fun e => e.event_date == d && e.event_type == t) = 0 :=
      List.countP_eq_zero.2 fun e he => by
        rcases (longStep_mem he).2.2 with h' | h' <;>
          rcases h1 with rfl | rfl <;> simp [h']
    have hzc : ((smaStep sym sw lw p st.prevSma).1).countP
        (fun e => e.event_date == d && e.event_type == t) = 0 :=
      List.countP_eq_zero.2 fun e he => by
        rcases (smaStep_mem he).2.2 with h' | h' <;>
          rcases h1 with rfl | rfl <;> simp [h']
    rw [hzb, hzc]
    omega
  · by_cases h2 : t = "price_cross_long_up" ∨ t = "price_cross_long_down"
    · have hza : ((shortStep sym sw lw p st.prevShort).1).countP
          (fun e => e.event_date == d && e.event_type == t) = 0 :=
        List.countP_eq_zero.2 fun e he => by
          rcases (shortStep_mem he).2.2 with h' | h' <;>
            rcases h2 with rfl | rfl <;> simp [h']
      have hzc : ((smaStep sym sw lw p st.prevSma).1).countP
          (fun e => e.event_date == d && e.event_type == t) = 0 :=
        List.countP_eq_zero.2 fun e he => by
          rcases (smaStep_mem he).2.2 with h' | h' <;>
            rcases h2 with rfl | rfl <;> simp [h']
      rw [hza, hzc]
      omega
    · by_cases h3 : t = "golden_cross" ∨ t = "death_cross"
      · have hza : ((shortStep sym sw lw p st.prevShort).1).countP
            (fun e => e.event_date == d && e.event_type == t) = 0 :=
          List.countP_eq_zero.2 fun e he => by
            rcases (shortStep_mem he).2.2 with h' | h' <;>
              rcases h3 with rfl | rfl <;> simp [h']
        have hzb : ((longStep sym sw lw p st.prevLong).1).countP
            (fun e => e.event_date == d && e.event_type == t) = 0 :=
          List.countP_eq_zero.2 fun e he => by
            rcases (longStep_mem he).2.2 with h' | h' <;>
              rcases h3 with rfl | rfl <;> simp [h']
        rw [hza, hzb]
        omega
      · have hza : ((shortStep sym sw lw p st.prevShort).1).countP
            (fun e => e.event_date == d && e.event_type == t) = 0 :=
          List.countP_eq_zero.2 fun e he => by
            rcases (shortStep_mem he).2.2 with h' | h' <;> simp [h'] <;>
              intro h4 h5 <;> simp_all
        have hzb : ((longStep sym sw lw p st.prevLong).1).countP
            (fun e => e.event_date == d && e.event_type == t) = 0 :=
          List.countP_eq_zero.2 fun e he => by
            rcases (longStep_mem he).2.2 with h' | h' <;> simp [h'] <;>
              intro h4 h5 <;> simp_all
        have hzc : ((smaStep sym sw lw p st.prevSma).1).countP
            (fun e => e.event_date == d && e.event_type == t) = 0 :=
          List.countP_eq_zero.2 fun e he => by
            rcases (smaStep_mem he).2.2 with h' | h' <;> simp [h'] <;>
              intro h4 h5 <;> simp_all
        rw [hza, hzb, hzc]
        omega

theorem runScan_countP (sym : String) (sw lw : ℕ) (A : List AnnPoint)
    (hA : A.Pairwise (fun a b => a.trade_date < b.trade_date)) (st : ScanState)
    (d : ℤ) :
    ((runScan sym sw lw st A).2).countP (fun e => e.event_date == d) ≤ 3 ∧
    ∀ t : String, ((runScan sym sw lw st A).2).countP
        (fun e => e.event_date == d && e.event_type == t) ≤ 1 := by
  induction A generalizing st with
  | nil => simp [runScan]
  | cons p ps ih =>
    have hhead := (List.pairwise_cons.1 hA).1
    have hps := (List.pairwise_cons.1 hA).2
    simp only [runScan, List.countP_append]
    by_cases hd : p.trade_date = d
    · have hrest : ∀ e ∈ (runScan sym sw lw (scanStep sym sw lw st p).1 ps).2,
          e.event_date ≠ d := by
        intro e he
        rcases runScan_mem he with ⟨-, hdm⟩
        rcases List.mem_map.1 hdm with ⟨a, ha, haa⟩
        have h1 := hhead a ha
        rw [← haa, ← hd]
        exact (ne_of_gt h1)
      constructor
      · have h0 : ((runScan sym sw lw (scanStep sym sw lw st p).1 ps).2).countP
            (fun e => e.event_date == d) = 0 :=
          List.countP_eq_zero.2 fun e he => by
            simp only [beq_iff_eq]
            exact hrest e he
        rw [h0, Nat.add_zero]
        exact scanStep_countP_date sym sw lw st p d
      · intro t
        have h0 : ((runScan sym sw lw (scanStep sym sw lw st p).1 ps).2).countP
            (fun e => e.event_date == d && e.event_type == t) = 0 :=
          List.countP_eq_zero.2 fun e he => by
            simp only [Bool.and_eq_true, beq_iff_eq, not_and]
            exact fun h => absurd h (hrest e he)
        rw [h0, Nat.add_zero]
        exact scanStep_countP_type sym sw lw st p d t
    · have hstep : ∀ e ∈ (scanStep sym sw lw st p).2, e.event_date ≠ d := by
        intro e he
        rw [(scanStep_mem he).2]
        exact hd
      constructor
      · rw [List.countP_eq_zero.2 (fun e he => by
          simp only [beq_iff_eq]
          exact hstep e he), Nat.zero_add]
        exact (ih hps _).1
      · intro t
        rw [List.countP_eq_zero.2 (fun e he => by
          simp only [Bool.and_eq_true, beq_iff_eq, not_and]
          exact fun h => absurd h (hstep e he)), Nat.zero_add]
        exact (ih hps _).2 t

/-- C7: on a date-sorted input series the scanner's raw output already
satisfies the primary-key uniqueness invariant: for every trade date the
output holds between 0 and 3 events, and at most one event of any given
`event_type` per date (each of the three differences contributes at most
one event per point). -/
theorem c7_per_date_event_bounds (sym : String) (sw lw : ℕ)
    (prices : List (ℤ × ℚ)) (hsorted : prices.Pairwise (fun a b => a.1 < b.1))
    (d : ℤ) :
    (compute_sma_events prices sym sw lw).countP (fun e => e.event_date == d) ≤ 3 ∧
    ∀ t : String, (compute_sma_events prices sym sw lw).countP
        (fun e => e.event_date == d && e.event_type == t) ≤ 1 := by
  by_cases hne : prices.isEmpty = true
  · simp [compute_sma_events, hne]
  · rw [compute_sma_events, if_neg hne]
    exact runScan_countP sym sw lw _ (annotate_sorted prices sw lw hsorted)
      initState d

/-- Witness for C7 on the 3-point series and the multi-event date 2. -/
theorem c7_per_date_event_bounds_witness :
    (compute_sma_events [((0 : ℤ), (10 : ℚ)), (1, 10), (2, 14)] "SYM" 2 5).countP
        (fun e => e.event_date == (2 : ℤ)) ≤ 3 ∧
    ∀ t : String,
      (compute_sma_events [((0 : ℤ), (10 : ℚ)), (1, 10), (2, 14)] "SYM" 2 5).countP
        (fun e => e.event_date == (2 : ℤ) && e.event_type == t) ≤ 1 :=
  c7_per_date_event_bounds "SYM" 2 5 [((0 : ℤ), (10 : ℚ)), (1, 10), (2, 14)]
    (by decide) 2

/-! ## Suffix runs can only rediscover events of the full run (claim C4) -/

/-- `a` is `b` with possibly less information (`none` models a not yet
warmed-up average). -/
def WeakerOpt (a b : Option ℚ) : Prop := a = none ∨ a = b

/-- Same date and close, each SMA annotation absent or identical. -/
def WeakerPoint (p q : AnnPoint) : Prop :=
  p.trade_date = q.trade_date ∧ p.close = q.close ∧
    WeakerOpt p.short_sma q.short_sma ∧ WeakerOpt p.long_sma q.long_sma

/-- Each register absent or identical. -/
def WeakerState (s t : ScanState) : Prop :=
  WeakerOpt s.prevShort t.prevShort ∧ WeakerOpt s.prevLong t.prevLong ∧
    WeakerOpt s.prevSma t.prevSma

theorem shortStep_weaker (sym : String) (sw lw : ℕ) {p q : AnnPoint}
    {prev prev' : Option ℚ} (hpq : WeakerPoint p q)
    (hprev : WeakerOpt prev prev') :
    WeakerOpt (shortStep sym sw lw p prev).2 (shortStep sym sw lw q prev').2 ∧
    ∀ e ∈ (shortStep sym sw lw p prev).1,
      ∃ e' ∈ (shortStep sym sw lw q prev').1,
        e'.event_date = e.event_date ∧ e'.event_type = e.event_type := by
  obtain ⟨hdate, hclose, hshort, hlong⟩ := hpq
  constructor
  · rw [shortStep_reg, shortStep_reg]
    rcases hshort with h | h
    · left
      simp [shortDiff, h]
    · right
      rw [shortDiff, shortDiff, h, hclose]
  · intro e he
    rcases hs : p.short_sma with _ | s
    · simp [shortStep, hs] at he
    · have hqs : q.short_sma = some s := by
        rcases hshort with h | h
        · rw [h] at hs
          exact absurd hs (by simp)
        · rw [← h]
          exact hs
      rcases hp2 : prev with _ | pd
      · simp [shortStep, hs, hp2] at he
      · have hp' : prev' = some pd := by
          rcases hprev with h | h
          · rw [h] at hp2
            exact absurd hp2 (by simp)
          · rw [← h]
            exact hp2
        simp only [shortStep, hs, hp2] at he
        simp only [shortStep, hqs, hp']
        rw [← hclose]
        split_ifs at he ⊢ with h1 h2
        · rcases List.mem_singleton.1 he with rfl
          exact ⟨_, List.mem_singleton.2 rfl, by simp [hdate], rfl⟩
        · rcases List.mem_singleton.1 he with rfl
          exact ⟨_, List.mem_singleton.2 rfl, by simp [hdate], rfl⟩
        · simp at he
  
theorem longStep_weaker (sym : String) (sw lw : ℕ) {p q : AnnPoint}
    {prev prev' : Option ℚ} (hpq : WeakerPoint p q)
    (hprev : WeakerOpt prev prev') :
    WeakerOpt (longStep sym sw lw p prev).2 (longStep sym sw lw q prev').2 ∧
    ∀ e ∈ (longStep sym sw lw p prev).1,
      ∃ e' ∈ (longStep sym sw lw q prev').1,
        e'.event_date = e.event_date ∧ e'.event_type = e.event_type := by
  obtain ⟨hdate, hclose, hshort, hlong⟩ := hpq
  constructor
  · rw [longStep_reg, longStep_reg]
    rcases hlong with h | h
    · left
      simp [longDiff, h]
    · right
      rw [longDiff, longDiff, h, hclose]
  · intro e he
    rcases hl : p.long_sma with _ | l
    · simp [longStep, hl] at he
    · have hql : q.long_sma = some l := by
        rcases hlong with h | h
        · rw [h] at hl
          exact absurd hl (by simp)
        · rw [← h]
          exact hl
      rcases hp2 : prev with _ | pd
      · simp [longStep, hl, hp2] at he
      · have hp' : prev' = some pd := by
          rcases hprev with h | h
          · rw [h] at hp2
            exact absurd hp2 (by simp)
          · rw [← h]
            exact hp2
        simp only [longStep, hl, hp2] at he
        simp only [longStep, hql, hp']
        rw [← hclose]
        split_ifs at he ⊢ with h1 h2
        · rcases List.mem_singleton.1 he with rfl
          exact ⟨_, List.mem_singleton.2 rfl, by simp [hdate], rfl⟩
        · rcases List.mem_singleton.1 he with rfl
          exact ⟨_, List.mem_singleton.2 rfl, by simp [hdate], rfl⟩
        · simp at he

theorem smaStep_weaker (sym : String) (sw lw : ℕ) {p q : AnnPoint}
    {prev prev' : Option ℚ} (hpq : WeakerPoint p q)
    (hprev : WeakerOpt prev prev') :
    WeakerOpt (smaStep sym sw lw p prev).2 (smaStep sym sw lw q prev').2 ∧
    ∀ e ∈ (smaStep sym sw lw p prev).1,
      ∃ e' ∈ (smaStep sym sw lw q prev').1,
        e'.event_date = e.event_date ∧ e'.event_type = e.event_type := by
  obtain ⟨hdate, hclose, hshort, hlong⟩ := hpq
  constructor
  · rw [smaStep_reg, smaStep_reg]
    rcases hs : p.short_sma with _ | s
    · left
      simp [smaDiff, hs]
    · rcases hl : p.long_sma with _ | l
      · left
        simp [smaDiff, hs, hl]
      · have hqs : q.short_sma = some s := by
          rcases hshort with h | h
          · rw [h] at hs
            exact absurd hs (by simp)
          · rw [← h]
            exact hs
        have hql : q.long_sma = some l := by
          rcases hlong with h | h
          · rw [h] at hl
            exact absurd hl (by simp)
          · rw [← h]
            exact hl
        right
        rw [smaDiff, smaDiff]
        rw [hs, hl, hqs, hql]
  · intro e he
    rcases hs : p.short_sma with _ | s
    · simp [smaStep, hs] at he
    · rcases hl : p.long_sma with _ | l
      · simp [smaStep, hs, hl] at he
      · have hqs : q.short_sma = some s := by
          rcases hshort with h | h
          · rw [h] at hs
            exact absurd hs (by simp)
          · rw [← h]
            exact hs
        have hql : q.long_sma = some l := by
          rcases hlong with h | h
          · rw [h] at hl
            exact absurd hl (by simp)
          · rw [← h]
            exact hl
        rcases hp2 : prev with _ | pd
        · simp [smaStep, hs, hl, hp2] at he
        · have hp' : prev' = some pd := by
            rcases hprev with h | h
            · rw [h] at hp2
              exact absurd hp2 (by simp)
            · rw [← h]
              exact hp2
          simp only [smaStep, hs, hl, hp2] at he
          simp only [smaStep, hqs, hql, hp']
          split_ifs at he ⊢ with h1 h2
          · rcases List.mem_singleton.1 he with rfl
            exact ⟨_, List.mem_singleton.2 rfl, by simp [hdate], rfl⟩
          · rcases List.mem_singleton.1 he with rfl
            exact ⟨_, List.mem_singleton.2 rfl, by simp [hdate], rfl⟩
          · simp at he

theorem scanStep_weaker (sym : String) (sw lw : ℕ) {s t : ScanState}
    {p q : AnnPoint} (hst : WeakerState s t) (hpq : WeakerPoint p q) :
    WeakerState (scanStep sym sw lw s p).1 (scanStep sym sw lw t q).1 ∧
    ∀ e ∈ (scanStep sym sw lw s p).2,
      ∃ e' ∈ (scanStep sym sw lw t q).2,
        e'.event_date = e.event_date ∧ e'.event_type = e.event_type := by
  obtain ⟨h1, h2, h3⟩ := hst
  have ha := shortStep_weaker sym sw lw hpq h1
  have hb := longStep_weaker sym sw lw hpq h2
  have hc := smaStep_weaker sym sw lw hpq h3
  constructor
  · exact ⟨ha.1, hb.1, hc.1⟩
  · intro e he
    simp only [scanStep, List.mem_append] at he ⊢
    rcases he with (h | h) | h
    · rcases ha.2 e h with ⟨e', he', hh⟩
      exact ⟨e', Or.inl (Or.inl he'), hh⟩
    · rcases hb.2 e h with ⟨e', he', hh⟩
      exact ⟨e', Or.inl (Or.inr he'), hh⟩
    · rcases hc.2 e h with ⟨e', he', hh⟩
      exact ⟨e', Or.inr he', hh⟩

theorem runScan_weaker (sym : String) (sw lw : ℕ) {l l' : List AnnPoint}
    (hll : List.Forall₂ WeakerPoint l l') :
    ∀ {s t : ScanState}, WeakerState s t →
    ∀ e ∈ (runScan sym sw lw s l).2,
      ∃ e' ∈ (runScan sym sw lw t l').2,
        e'.event_date = e.event_date ∧ e'.event_type = e.event_type := by
  induction hll with
  | nil =>
    intro s t _ e he
    simp [runScan] at he
  | cons hpq hrest ih =>
    intro s t hst e he
    simp only [runScan, List.mem_append] at he ⊢
    rcases he with h | h
    · rcases (scanStep_weaker sym sw lw hst hpq).2 e h with ⟨e', he', hh⟩
      exact ⟨e', Or.inl he', hh⟩
    · rcases ih (scanStep_weaker sym sw lw hst hpq).1 e h with ⟨e', he', hh⟩
      exact ⟨e', Or.inr he', hh⟩

theorem rollingMeanAt_drop (closes : List ℚ) (W k i : ℕ)
    (hi : i < closes.length - k) :
    WeakerOpt (rollingMeanAt (closes.drop k) W i)
      (rollingMeanAt closes W (k + i)) := by
  rcases le_or_lt W ((rollWindow (closes.drop k) W i).length) with h | h
  · right
    have hi' : i < (closes.drop k).length := by
      rw [List.length_drop]
      omega
    have hWle : W ≤ i + 1 := by
      have hl := rollWindow_length (closes.drop k) W i hi'
      omega
    have hw : rollWindow (closes.drop k) W i = rollWindow closes W (k + i) := by
      rw [rollWindow, rollWindow]
      have e1 : (closes.drop k).take (i + 1) =
          (closes.take (k + (i + 1))).drop k := by
        rw [List.drop_take]
        congr 1
        omega
      rw [e1, List.drop_drop]
      congr 1
      omega
    rw [rollingMeanAt, rollingMeanAt, hw]
  · left
    rw [rollingMeanAt, if_neg (not_le.mpr h)]

theorem drop_map_range {α : Type} (f : ℕ → α) (n k : ℕ) (hk : k ≤ n) :
    ((List.range n).map f).drop k =
      (List.range (n - k)).map (fun j => f (k + j)) := by
  have hr : (List.range n).drop k = (List.range (n - k)).map (fun j => k + j) := by
    conv_lhs => rw [show n = k + (n - k) by omega, List.range_add]
    have h0 := List.drop_left (List.range k)
      ((List.range (n - k)).map (fun j => k + j))
    rw [List.length_range] at h0
    exact h0
  rw [← List.map_drop, hr, List.map_map]
  rfl

theorem annotate_drop_weaker (prices : List (ℤ × ℚ)) (sw lw k : ℕ) :
    List.Forall₂ WeakerPoint (annotate (prices.drop k) sw lw)
      ((annotate prices sw lw).drop k) := by
  by_cases hk : k ≤ prices.length
  · rw [annotate, annotate]
    rw [drop_map_range _ prices.length k hk]
    rw [List.length_drop]
    rw [List.forall₂_map_left_iff, List.forall₂_map_right_iff]
    rw [List.forall₂_same]
    intro j hj
    rw [List.mem_range] at hj
    have hg : (prices.drop k).getD j (0, 0) = prices.getD (k + j) (0, 0) := by
      rw [List.getD_eq_getElem?_getD, List.getD_eq_getElem?_getD,
        List.getElem?_drop]
    have hm : (prices.drop k).map (·.2) = (prices.map (·.2)).drop k :=
      List.map_drop _ prices k
    refine ⟨by rw [hg], by rw [hg], ?_, ?_⟩
    · rw [hm]
      exact rollingMeanAt_drop (prices.map (·.2)) sw k j (by simpa using hj)
    · rw [hm]
      exact rollingMeanAt_drop (prices.map (·.2)) lw k j (by simpa using hj)
  · have h1 : prices.drop k = [] := List.drop_eq_nil_of_le (by omega)
    have h2 : (annotate prices sw lw).drop k = [] :=
      List.drop_eq_nil_of_le (by rw [annotate_length]; omega)
    rw [h1, h2]
    have h3 : annotate [] sw lw = [] := by simp [annotate]
    rw [h3]
    exact List.Forall₂.nil

/-! ## The run loop of `main`: resumption, reading, deduplication -/

/-- The primary key of an event (line 347). -/
def eventKey (e : SmaEvent) : String × ℤ × String :=
  (e.symbol, e.event_date, e.event_type)

/-- Lines 344-348: retain only the scanner candidates whose key is not in
the existing-events set. -/
def filter_new_events (existing : List (String × ℤ × String))
    (events : List SmaEvent) : List SmaEvent :=
  events.filter (fun e => decide (eventKey e ∉ existing))

/-- Lines 356-357: after a symbol's batch commits, its retained keys are
added to the in-memory existing-events set. -/
def update_existing_events (existing : List (String × ℤ × String))
    (newEvents : List SmaEvent) : List (String × ℤ × String) :=
  existing ++ newEvents.map eventKey

/-- Lines 358-360 (and, equivalently, lines 115-117 when loading): the
latest-event-date register, folded over a list of events starting from the
current value. -/
def update_latest_event_date (cur : Option ℤ) (events : List SmaEvent) :
    Option ℤ :=
  events.foldl
    (fun acc e =>
      match acc with
      | none => some e.event_date
      | some d => if d < e.event_date then some e.event_date else some d)
    cur

/-- The per-symbol latest event date derived from a run's events
(`load_existing_events`, lines 113-117). -/
def latest_event_date (events : List SmaEvent) : Option ℤ :=
  update_latest_event_date none events

/-- Lines 335-339: the start-date floor handed to the price reader — the
latest event date minus `max(long_window, short_window) + 5` days, or no
floor when the symbol has no recorded event. -/
def start_date_filter (latest : Option ℤ) (sw lw : ℕ) : Option ℤ :=
  match latest with
  | some d => some (d - ((max lw sw + 5 : ℕ) : ℤ))
  | none => none

/-- `fetch_price_history` (lines 121-144): the symbol's rows, already
ordered by date ascending, restricted to `trade_date >= start_date` when a
floor is given. -/
def fetch_price_history (rows : List (ℤ × ℚ)) (start : Option ℤ) :
    List (ℤ × ℚ) :=
  match start with
  | some s => rows.filter (fun r => decide (s ≤ r.1))
  | none => rows

/-- The net-new events of a second engine run over unchanged prices: the
first run populates the store, the second reads from the resumption floor
and deduplicates against the first run's keys. -/
def second_run_new_events (prices : List (ℤ × ℚ)) (sym : String)
    (sw lw : ℕ) : List SmaEvent :=
  filter_new_events ((compute_sma_events prices sym sw lw).map eventKey)
    (compute_sma_events
      (fetch_price_history prices
        (start_date_filter
          (latest_event_date (compute_sma_events prices sym sw lw)) sw lw))
      sym sw lw)

/-- On a date-sorted list, restricting to `trade_date >= s` keeps a suffix. -/
theorem fetch_price_history_suffix (prices : List (ℤ × ℚ))
    (hsorted : prices.Pairwise (fun a b => a.1 < b.1)) (start : Option ℤ) :
    ∃ k, fetch_price_history prices start = prices.drop k := by
  rcases start with _ | s
  · exact ⟨0, rfl⟩
  · induction hsorted with
    | nil => exact ⟨0, rfl⟩
    | @cons r rs hhead htail ih =>
      by_cases hr : s ≤ r.1
      · refine ⟨0, ?_⟩
        rw [fetch_price_history, List.drop_zero]
        apply List.filter_eq_self.2
        intro a ha
        simp only [decide_eq_true_eq]
        rcases List.mem_cons.1 ha with rfl | ha'
        · exact hr
        · exact le_trans hr (le_of_lt (hhead a ha'))
      · rcases ih with ⟨k, hk⟩
        refine ⟨k + 1, ?_⟩
        rw [fetch_price_history] at hk
        rw [fetch_price_history, List.filter_cons_of_neg (by simpa using hr),
          hk, List.drop_succ_cons]

/-- C4: running the engine a second time over the same unchanged price
history — reading from the resumption floor
`latest - (max(short_window, long_window) + 5)` days and deduplicating
against the key set produced by the first run — yields zero new events:
every candidate of the second run carries a key the first run already
produced. -/
theorem c4_second_run_is_empty (sym : String) (sw lw : ℕ)
    (prices : List (ℤ × ℚ))
    (hsorted : prices.Pairwise (fun a b => a.1 < b.1)) :
    second_run_new_events prices sym sw lw = [] := by
  rw [second_run_new_events, filter_new_events]
  apply List.filter_eq_nil_iff.2
  intro e he
  simp only [decide_eq_true_eq, not_not]
  obtain ⟨k, hk⟩ := fetch_price_history_suffix prices hsorted
    (start_date_filter
      (latest_event_date (compute_sma_events prices sym sw lw)) sw lw)
  rw [hk] at he
  by_cases hdk : (prices.drop k).isEmpty = true
  · rw [compute_sma_events, if_pos hdk] at he
    simp at he
  · rw [compute_sma_events, if_neg hdk] at he
    have hne : ¬prices.isEmpty = true := by
      intro h
      rw [List.isEmpty_iff.1 h] at hdk
      simp at hdk
    have hinit : WeakerState initState
        (runScan sym sw lw initState ((annotate prices sw lw).take k)).1 :=
      ⟨Or.inl rfl, Or.inl rfl, Or.inl rfl⟩
    rcases runScan_weaker sym sw lw (annotate_drop_weaker prices sw lw k)
      hinit e he with ⟨e', he', hdate, htype⟩
    have hfull : e' ∈ (runScan sym sw lw initState (annotate prices sw lw)).2 := by
      have h3 := runScan_append sym sw lw initState
        ((annotate prices sw lw).take k) ((annotate prices sw lw).drop k)
      rw [List.take_append_drop] at h3
      rw [h3]
      exact List.mem_append.2 (Or.inr he')
    have hsym : e.symbol = sym := (runScan_mem he).1
    have hsym' : e'.symbol = sym := (runScan_mem hfull).1
    rw [compute_sma_events, if_neg hne]
    exact List.mem_map.2 ⟨e', hfull, by simp [eventKey, hsym, hsym', hdate, htype]⟩

/-- Witness for C4 on a series producing a golden cross, both price
crosses and a later quiet day (closes `6, 6, 6, 6, 12, 18`, windows 2/3). -/
theorem c4_second_run_is_empty_witness :
    second_run_new_events
      [((0 : ℤ), (6 : ℚ)), (1, 6), (2, 6), (3, 6), (4, 12), (5, 18)]
      "SYM" 2 3 = [] :=
  c4_second_run_is_empty "SYM" 2 3
    [((0 : ℤ), (6 : ℚ)), (1, 6), (2, 6), (3, 6), (4, 12), (5, 18)] (by decide)

/-! ## Deduplication and bookkeeping after commit (claim C5) -/

theorem foldl_max_spec (d0 : ℤ) (ds : List ℤ) :
    d0 ≤ ds.foldl max d0 ∧ (∀ x ∈ ds, x ≤ ds.foldl max d0) ∧
      (ds.foldl max d0 = d0 ∨ ds.foldl max d0 ∈ ds) := by
  induction ds generalizing d0 with
  | nil => simp
  | cons x xs ih =>
    rcases ih (max d0 x) with ⟨h1, h2, h3⟩
    refine ⟨le_trans (le_max_left _ _) h1, ?_, ?_⟩
    · intro y hy
      rcases List.mem_cons.1 hy with rfl | hy'
      · exact le_trans (le_max_right _ _) h1
      · exact h2 y hy'
    · rcases h3 with h | h
      · rcases le_total d0 x with hle | hle
        · right
          rw [List.foldl_cons, h, max_eq_right hle]
          exact List.mem_cons_self _ _
        · left
          rw [List.foldl_cons, h, max_eq_left hle]
      · right
        rw [List.foldl_cons]
        exact List.mem_cons_of_mem _ h

theorem update_latest_some (d0 : ℤ) (evs : List SmaEvent) :
    update_latest_event_date (some d0) evs =
      some ((evs.map (·.event_date)).foldl max d0) := by
  induction evs generalizing d0 with
  | nil => rfl
  | cons e rest ih =>
    have hstep : update_latest_event_date (some d0) (e :: rest) =
        update_latest_event_date (some (max d0 e.event_date)) rest := by
      rw [update_latest_event_date, update_latest_event_date, List.foldl_cons]
      congr 1
      show (if d0 < e.event_date then some e.event_date else some d0) =
        some (max d0 e.event_date)
      split_ifs with h <;> congr 1 <;> omega
    rw [hstep, ih (max d0 e.event_date), List.map_cons, List.foldl_cons]

theorem update_latest_none (evs : List SmaEvent) :
    update_latest_event_date none evs =
      match evs with
      | [] => none
      | e :: rest => some ((rest.map (·.event_date)).foldl max e.event_date) := by
  rcases evs with _ | ⟨e, rest⟩
  · rfl
  · rw [update_latest_event_date, List.foldl_cons]
    exact update_latest_some e.event_date rest

/-- C5: the deduplication step retains exactly the candidates whose
(symbol, event_date, event_type) key is absent from the existing set (so a
pre-seeded key is never passed to the writer while candidates at other
keys are); after the batch is committed the in-memory key set holds the
old keys plus all retained keys, and the latest-event-date register is the
maximum over its old value and the retained events' dates — both when the
symbol already had a recorded latest date (`some d0`) and when it commits
its first events (`none`: absent for an empty batch, otherwise the
attained maximum of the batch's dates). -/
theorem c5_dedup_and_commit_bookkeeping :
    (∀ (existing : List (String × ℤ × String)) (events : List SmaEvent)
       (e : SmaEvent),
       e ∈ filter_new_events existing events ↔
         e ∈ events ∧ eventKey e ∉ existing) ∧
    (∀ (existing : List (String × ℤ × String)) (newEvents : List SmaEvent)
       (key : String × ℤ × String),
       key ∈ update_existing_events existing newEvents ↔
         key ∈ existing ∨ key ∈ newEvents.map eventKey) ∧
    (∀ (d0 : ℤ) (newEvents : List SmaEvent),
       update_latest_event_date (some d0) newEvents =
         some ((newEvents.map (·.event_date)).foldl max d0)) ∧
    (∀ (d0 : ℤ) (newEvents : List SmaEvent),
       d0 ≤ (newEvents.map (·.event_date)).foldl max d0 ∧
       (∀ e ∈ newEvents,
          e.event_date ≤ (newEvents.map (·.event_date)).foldl max d0) ∧
       ((newEvents.map (·.event_date)).foldl max d0 = d0 ∨
        (newEvents.map (·.event_date)).foldl max d0 ∈
          newEvents.map (·.event_date))) ∧
    update_latest_event_date none ([] : List SmaEvent) = none ∧
    (∀ (e : SmaEvent) (rest : List SmaEvent),
       update_latest_event_date none (e :: rest) =
         some ((rest.map (·.event_date)).foldl max e.event_date)) ∧
    (∀ (e : SmaEvent) (rest : List SmaEvent),
       (∀ x ∈ e :: rest,
          x.event_date ≤ (rest.map (·.event_date)).foldl max e.event_date) ∧
       (rest.map (·.event_date)).foldl max e.event_date ∈
         (e :: rest).map (·.event_date)) := by
  refine ⟨?_, ?_, update_latest_some, ?_, rfl, ?_, ?_⟩
  · intro existing events e
    rw [filter_new_events, List.mem_filter]
    simp only [decide_eq_true_eq]
  · intro existing newEvents key
    rw [update_existing_events, List.mem_append]
  · intro d0 newEvents
    rcases foldl_max_spec d0 (newEvents.map (·.event_date)) with ⟨h1, h2, h3⟩
    exact ⟨h1, fun e he => h2 _ (List.mem_map.2 ⟨e, he, rfl⟩), h3⟩
  · intro e rest
    exact update_latest_none (e :: rest)
  · intro e rest
    rcases foldl_max_spec e.event_date (rest.map (·.event_date)) with ⟨h1, h2, h3⟩
    constructor
    · intro x hx
      rcases List.mem_cons.1 hx with rfl | hx'
      · exact h1
      · exact h2 _ (List.mem_map.2 ⟨x, hx', rfl⟩)
    · rw [List.map_cons]
      rcases h3 with h | h
      · rw [h]
        exact List.mem_cons_self _ _
      · exact List.mem_cons_of_mem _ h

/-- A concrete golden-cross event used in the C5 witness. -/
def seedEvent : SmaEvent :=
  { symbol := "SYM", event_date := 5, event_type := "golden_cross",
    short_window := 2, long_window := 3, close_price := 1,
    short_sma := none, long_sma := none }

/-- Witness for C5: a candidate whose key is pre-seeded in the existing
set is retained exactly when its key is absent there. -/
theorem c5_dedup_and_commit_bookkeeping_witness :
    seedEvent ∈ filter_new_events [("SYM", (5 : ℤ), "golden_cross")] [seedEvent] ↔
      (seedEvent ∈ [seedEvent] ∧
        eventKey seedEvent ∉ [("SYM", (5 : ℤ), "golden_cross")]) :=
  c5_dedup_and_commit_bookkeeping.1 [("SYM", (5 : ℤ), "golden_cross")]
    [seedEvent] seedEvent

/-! ## The resumption floor (claim C6) -/

/-- C6: a symbol with recorded latest event date `D` gets the start-date
floor `D - (max(short_window, long_window) + 5)` days; a symbol without a
prior event gets no floor, and the reader then returns the full available
history. -/
theorem c6_resumption_floor (sw lw : ℕ) (rows : List (ℤ × ℚ)) :
    (∀ D : ℤ, start_date_filter (some D) sw lw =
        some (D - ((max sw lw + 5 : ℕ) : ℤ))) ∧
    start_date_filter none sw lw = none ∧
    fetch_price_history rows none = rows := by
  refine ⟨fun D => ?_, rfl, rfl⟩
  rw [start_date_filter, Nat.max_comm]

/-! ## The event-store writer's upsert (claims C8, C10) -/

/-- The columns of the `sma_events` table, in declaration order
(lines 71-85). -/
inductive SmaCol where
  | symbol
  | event_date
  | event_type
  | short_window
  | long_window
  | close_price
  | short_sma
  | long_sma
  | created_at
  deriving DecidableEq, Repr

def smaTableColumns : List SmaCol :=
  [.symbol, .event_date, .event_type, .short_window, .long_window,
   .close_price, .short_sma, .long_sma, .created_at]

/-- `column.primary_key` (lines 74-76). -/
def SmaCol.primaryKey : SmaCol → Bool
  | .symbol => true
  | .event_date => true
  | .event_type => true
  | _ => false

/-- `column.name`. -/
def SmaCol.colName : SmaCol → String
  | .symbol => "symbol"
  | .event_date => "event_date"
  | .event_type => "event_type"
  | .short_window => "short_window"
  | .long_window => "long_window"
  | .close_price => "close_price"
  | .short_sma => "short_sma"
  | .long_sma => "long_sma"
  | .created_at => "created_at"

/-- Lines 296-300: the update set of the `ON DUPLICATE KEY UPDATE` clause —
every column that is neither part of the primary key nor `created_at`. -/
def updateColumns : List SmaCol :=
  smaTableColumns.filter (fun c => !(c.primaryKey || c.colName == "created_at"))

/-- A stored row of `sma_events`, including the server-side `created_at`
timestamp. -/
structure StoredRow where
  symbol : String
  event_date : ℤ
  event_type : String
  short_window : ℕ
  long_window : ℕ
  close_price : Option ℚ
  short_sma : Option ℚ
  long_sma : Option ℚ
  created_at : ℤ
  deriving DecidableEq, Repr

/-- Overwrite one column of the stored row with the incoming row's value
(the `stmt.inserted.<column>` reference built on line 300). -/
def setColumn (stored incoming : StoredRow) : SmaCol → StoredRow
  | .symbol => { stored with symbol := incoming.symbol }
  | .event_date => { stored with event_date := incoming.event_date }
  | .event_type => { stored with event_type := incoming.event_type }
  | .short_window => { stored with short_window := incoming.short_window }
  | .long_window => { stored with long_window := incoming.long_window }
  | .close_price => { stored with close_price := incoming.close_price }
  | .short_sma => { stored with short_sma := incoming.short_sma }
  | .long_sma => { stored with long_sma := incoming.long_sma }
  | .created_at => { stored with created_at := incoming.created_at }

/-- MySQL row semantics of `INSERT ... ON DUPLICATE KEY UPDATE` with the
update set of lines 296-301: on a primary-key conflict the stored row
takes the incoming value for every column in the update set and keeps
every other column. -/
def on_duplicate_key_update (stored incoming : StoredRow) : StoredRow :=
  updateColumns.foldl (fun acc c => setColumn acc incoming c) stored

/-- C8: the update set is exactly the five non-key data columns, and on a
key conflict the merged row takes `short_window`, `long_window`,
`close_price`, `short_sma` and `long_sma` from the incoming row while
keeping the stored `symbol`, `event_date`, `event_type` and `created_at`
unchanged. -/
theorem c8_upsert_preserves_keys_and_created_at :
    updateColumns = [.short_window, .long_window, .close_price,
      .short_sma, .long_sma] ∧
    ∀ stored incoming : StoredRow,
      (on_duplicate_key_update stored incoming).symbol = stored.symbol ∧
      (on_duplicate_key_update stored incoming).event_date = stored.event_date ∧
      (on_duplicate_key_update stored incoming).event_type = stored.event_type ∧
      (on_duplicate_key_update stored incoming).created_at = stored.created_at ∧
      (on_duplicate_key_update stored incoming).short_window =
        incoming.short_window ∧
      (on_duplicate_key_update stored incoming).long_window =
        incoming.long_window ∧
      (on_duplicate_key_update stored incoming).close_price =
        incoming.close_price ∧
      (on_duplicate_key_update stored incoming).short_sma = incoming.short_sma ∧
      (on_duplicate_key_update stored incoming).long_sma = incoming.long_sma :=
  ⟨rfl, fun _ _ => ⟨rfl, rfl, rfl, rfl, rfl, rfl, rfl, rfl, rfl⟩⟩

/-! ## The per-symbol run loop and read failures (claim C9) -/

/-- The mutable run context of `main`: the existing-events key set, the
per-symbol latest event dates and the events written so far. -/
structure RunState where
  existing : List (String × ℤ × String)
  latest : String → Option ℤ
  written : List SmaEvent

/-- One iteration of the `for symbol in symbols` loop (lines 334-362),
with the price read modelled as a fallible call: compute the resumption
floor, read, scan, deduplicate, commit, and update the in-memory state.
`main` wraps none of this in a `try`/`except`, so a reader failure is
propagated as the `Except` error. -/
def process_symbol (reader : String → Option ℤ → Except String (List (ℤ × ℚ)))
    (sw lw : ℕ) (st : RunState) (sym : String) : Except String RunState :=
  (reader sym (start_date_filter (st.latest sym) sw lw)).map fun frame =>
    let newEvents :=
      filter_new_events st.existing (compute_sma_events frame sym sw lw)
    { existing := update_existing_events st.existing newEvents
      latest := fun s =>
        if s = sym then update_latest_event_date (st.latest sym) newEvents
        else st.latest s
      written := st.written ++ newEvents }

/-- The whole symbol loop of `main`: a monadic fold that stops at the
first reader failure. -/
def main_loop (reader : String → Option ℤ → Except String (List (ℤ × ℚ)))
    (sw lw : ℕ) (symbols : List String) (st : RunState) :
    Except String RunState :=
  symbols.foldlM (process_symbol reader sw lw) st

/-- A reader whose storage is unavailable for symbol `AAA` but fine for
every other symbol. -/
def flakyReader : String → Option ℤ → Except String (List (ℤ × ℚ)) :=
  fun sym _ =>
    if sym = "AAA" then .error "database unavailable"
    else .ok [((0 : ℤ), (10 : ℚ)), (1, 10), (2, 14)]

/-- The initial run context: nothing recorded yet. -/
def emptyRunState : RunState := ⟨[], fun _ => none, []⟩

/-- Counterexample to C9: with a read failure on the first symbol the run
aborts with the error — the second symbol, whose series would produce an
event, is never processed and nothing is written, contradicting the
claimed log-and-skip recovery. -/
theorem c9_counterexample_read_failure_aborts :
    main_loop flakyReader 2 5 ["AAA", "BBB"] emptyRunState =
      .error "database unavailable" ∧
    compute_sma_events [((0 : ℤ), (10 : ℚ)), (1, 10), (2, 14)] "BBB" 2 5 ≠ [] := by
  constructor
  · rfl
  · norm_num [compute_sma_events, annotate, runScan, scanStep, shortStep,
      longStep, smaStep, rollingMeanAt, rollWindow, initState, List.range_succ]

/-- C9 amended: a failed price read for a symbol is not recovered — the
exception propagates out of the loop, the run aborts with that error, and
the remaining symbols are not processed. -/
theorem c9_read_failure_aborts_run
    (reader : String → Option ℤ → Except String (List (ℤ × ℚ)))
    (sw lw : ℕ) (sym : String) (rest : List String) (st : RunState)
    (msg : String)
    (hfail : reader sym (start_date_filter (st.latest sym) sw lw) =
      .error msg) :
    main_loop reader sw lw (sym :: rest) st = .error msg := by
  rw [main_loop, List.foldlM_cons, process_symbol, hfail]
  rfl

/-- Witness for the amended C9 at the concrete flaky reader. -/
theorem c9_read_failure_aborts_run_witness :
    main_loop flakyReader 2 5 ["AAA", "BBB"] emptyRunState =
      .error "database unavailable" :=
  c9_read_failure_aborts_run flakyReader 2 5 "AAA" ["BBB"] emptyRunState
    "database unavailable" rfl

/-! ## Batch counting in `upsert_events` (claim C10) -/

/-- The `chunked` generator (lines 277-285): grow the current chunk, yield
it as soon as it reaches `size` elements, and yield any leftover at the
end. -/
def chunkedGo (size : ℕ) : List SmaEvent → List SmaEvent → List (List SmaEvent)
  | [], chunk => if chunk.isEmpty then [] else [chunk]
  | x :: xs, chunk =>
    if size ≤ (chunk ++ [x]).length then
      (chunk ++ [x]) :: chunkedGo size xs []
    else chunkedGo size xs (chunk ++ [x])

def chunked (rows : List SmaEvent) (size : ℕ) : List (List SmaEvent) :=
  chunkedGo size rows []

/-- The count returned by `upsert_events` (lines 288-303): 0 for an empty
input, otherwise the sum of the submitted batch sizes
(`inserted += len(batch)`) — conflicts are updates, not errors, and are
counted all the same. -/
def upsert_events_count (rows : List SmaEvent) (chunk_size : ℕ) : ℕ :=
  if rows.isEmpty then 0
  else ((chunked rows chunk_size).map List.length).sum

theorem chunkedGo_sum_length (size : ℕ) (xs : List SmaEvent) :
    ∀ chunk : List SmaEvent,
      (((chunkedGo size xs chunk).map List.length).sum) =
        chunk.length + xs.length := by
  induction xs with
  | nil =>
    intro chunk
    by_cases h : chunk.isEmpty
    · rw [chunkedGo, if_pos h]
      simp [List.isEmpty_iff.1 h]
    · rw [chunkedGo, if_neg h]
      simp
  | cons x xs ih =>
    intro chunk
    rw [chunkedGo]
    split_ifs with h
    · rw [List.map_cons, List.sum_cons, ih []]
      simp
      omega
    · rw [ih (chunk ++ [x])]
      simp
      omega

/-- C10: for a non-empty row list and any chunk size `≥ 1`,
`upsert_events` reports exactly the number of submitted rows — the sum of
the chunk lengths equals the input length, whatever mixture of fresh
inserts and duplicate-key updates the store performs. -/
theorem c10_upsert_count_is_submitted_rows (rows : List SmaEvent)
    (chunk_size : ℕ) (hne : rows ≠ []) (_hcs : 1 ≤ chunk_size) :
    upsert_events_count rows chunk_size = rows.length := by
  rw [upsert_events_count, if_neg (by simpa [List.isEmpty_iff] using hne),
    chunked, chunkedGo_sum_length]
  simp

/-- Witness for C10: three rows in chunks of two count as three. -/
theorem c10_upsert_count_is_submitted_rows_witness :
    ([seedEvent, seedEvent, seedEvent] ≠ ([] : List SmaEvent) ∧ 1 ≤ 2) ∧
    upsert_events_count [seedEvent, seedEvent, seedEvent] 2 = 3 :=
  ⟨⟨by simp, by norm_num⟩,
   c10_upsert_count_is_submitted_rows [seedEvent, seedEvent, seedEvent] 2
     (by simp) (by norm_num)⟩
